import Mathlib

/-!
Shallow embedding of the work-item hierarchy retrieval and iteration-date
resolution pipeline of `src/src/services/azure-devops-service.ts`, together
with theorems settling the frozen claims about it.

Modelling conventions:
* JavaScript `Map` objects are association lists in insertion order;
  `Map.set` overwrites the first entry with an equal key in place and
  otherwise appends, `Map.get` returns the first match.
* Calendar dates (JS `Date` values, and the ISO date strings the service
  parses with `new Date(...)`) are `SDate` year/month/day records with the
  month 0-based as in JS; JS `Date` comparison (milliseconds since the
  epoch) is the lexicographic order on year/month/day, realised through an
  injective integer key.
* JS string operations are modelled on the character list of the Lean
  string (`jsStartsWith`, `jsSplitOnChar`); the source only applies them to
  backslash-separated path strings.
-/

namespace ScaledAgile

/-! ## Calendar dates -/

/-- A calendar date as JS `new Date(year, month, day)` holds it: `month` is
0-based (0 = January). -/
structure SDate where
  year : Int
  month : Nat
  day : Nat
deriving DecidableEq, Repr

/-- Injective key realising the JS `Date` order (milliseconds since the
epoch) as a lexicographic order on (year, month, day): for calendar dates
`month * 32 + day < 416`. -/
def SDate.key (d : SDate) : Int := d.year * 416 + (d.month : Int) * 32 + (d.day : Int)

/-- JS `a < b` on two `Date` values. -/
def dLt (a b : SDate) : Bool := a.key < b.key

/-- JS `a <= b` on two `Date` values. -/
def dLe (a b : SDate) : Bool := a.key ≤ b.key

def isLeapYear (y : Int) : Bool := (y % 4 == 0 && y % 100 != 0) || (y % 400 == 0)

/-- Days in the 0-based month `m` of year `y` (JS `Date` month convention). -/
def daysInMonth (y : Int) (m : Nat) : Nat :=
  match m with
  | 0 => 31
  | 1 => if isLeapYear y then 29 else 28
  | 2 => 31
  | 3 => 30
  | 4 => 31
  | 5 => 30
  | 6 => 31
  | 7 => 31
  | 8 => 30
  | 9 => 31
  | 10 => 30
  | _ => 31

/-- JS `new Date(y, m, d)` for the argument shapes `getQuarterRange`
produces: month in `0..12` (month 12 rolls over to January of the next
year) and day 0 or 1 (day 0 denotes the last day of the preceding month). -/
def jsDate (y : Int) (m : Nat) (d : Nat) : SDate :=
  let y1 : Int := if m ≥ 12 then y + 1 else y
  let m1 : Nat := if m ≥ 12 then m - 12 else m
  if d = 0 then
    if m1 = 0 then ⟨y1 - 1, 11, 31⟩
    else ⟨y1, m1 - 1, daysInMonth y1 (m1 - 1)⟩
  else ⟨y1, m1, d⟩

/-! ## Quarter arithmetic (`getQuarterRange`) -/

/-- The two `while` loops of the source's `shiftQuarter` helper: bring the
quarter number into `[1, 4]`, adjusting the year by one per step. -/
def qWrap (q y : Int) : Int × Int :=
  if q < 1 then qWrap (q + 4) (y - 1)
  else if q > 4 then qWrap (q - 4) (y + 1)
  else (q, y)
termination_by (1 - q).toNat + (q - 4).toNat
decreasing_by all_goals omega

/-- The source's `shiftQuarter` closure (captures `year`): shift quarter `q`
of `year` by `offset`, wrapping across year boundaries. -/
def shiftQuarter (year q offset : Int) : Int × Int := qWrap (q + offset) year

structure QuarterRange where
  previousQuarterStart : SDate
  twoQuartersAfterEnd : SDate
deriving DecidableEq, Repr

/-- `getQuarterRange`: the start of the quarter before the reference date's
quarter, and the last day of the second quarter after it (the source forms
the latter as `new Date(y, afterQuarter * 3, 0)`). -/
def getQuarterRange (referenceDate : SDate) : QuarterRange :=
  let year := referenceDate.year
  let month := referenceDate.month
  let currentQuarter : Int := (month : Int) / 3 + 1
  let prev := shiftQuarter year currentQuarter (-1)
  let previousQuarterStart := jsDate prev.2 ((prev.1 - 1) * 3).toNat 1
  let after := shiftQuarter year currentQuarter 2
  let twoQuartersAfterEnd := jsDate after.2 (after.1 * 3).toNat 0
  { previousQuarterStart := previousQuarterStart, twoQuartersAfterEnd := twoQuartersAfterEnd }

/-! ## JS Map and string primitives -/

/-- JS `Map.get`: the value of the first entry with the given key. -/
def mapFind {α β : Type} [DecidableEq α] (m : List (α × β)) (k : α) : Option β :=
  match m with
  | [] => none
  | (k', v) :: rest => if k' = k then some v else mapFind rest k

/-- JS `Map.set`: overwrite the first entry with the given key in place,
else append a new entry. -/
def mapSet {α β : Type} [DecidableEq α] (m : List (α × β)) (k : α) (v : β) : List (α × β) :=
  match m with
  | [] => [(k, v)]
  | (k', v') :: rest => if k' = k then (k, v) :: rest else (k', v') :: mapSet rest k v

/-- `src.forEach((value, key) => dst.set(key, value))`. -/
def mapSetAll {α β : Type} [DecidableEq α] (dst src : List (α × β)) : List (α × β) :=
  src.foldl (fun a e => mapSet a e.1 e.2) dst

/-- Emptiness of a list is decidable without decidable equality of the
elements (used for `= []` tests on lists of converted items, whose nested
type derives no `DecidableEq`). -/
instance decListEqNil {α : Type} (l : List α) : Decidable (l = []) :=
  match l with
  | [] => .isTrue rfl
  | _ :: _ => .isFalse (fun h => List.noConfusion h)

/-- JS `String.prototype.startsWith` (a code-unit prefix test). -/
def jsStartsWith (s pre : String) : Bool := pre.data.isPrefixOf s.data

/-- JS `String.prototype.split` with a one-character separator string (the
source always splits on `"\\"`). -/
def jsSplitOnChar (sep : Char) : List Char → List (List Char)
  | [] => [[]]
  | a :: rest =>
    let r := jsSplitOnChar sep rest
    if a = sep then [] :: r
    else
      match r with
      | [] => [[a]]
      | h :: t => (a :: h) :: t

/-! ## Iteration index (`extractIterationsFromNode`) -/

/-- One iteration's `{startDate, finishDate}` attribute pair. The source
stores ISO date strings and compares them after `new Date(...)` parsing;
the model carries the parsed dates directly. -/
structure IterDates where
  startDate : SDate
  finishDate : SDate
deriving DecidableEq, Repr

abbrev IterationMap := List (String × IterDates)

/-- A classification node: a name, optionally a dated `attributes` record
(present exactly when the source's truthiness test
`node.attributes && node.attributes.startDate && node.attributes.finishDate`
passes), and a list of children. -/
inductive ClassificationNode where
  | mk (name : String) (attrs : Option IterDates) (children : List ClassificationNode)

mutual

/-- `extractIterationsFromNode`: depth-first walk registering each dated
node under its full backslash-joined path. The alias registrations (path
with the project prefix stripped, bare node name) are commented out in the
source, so only the full path is registered and `projectName` is unused. -/
def extractIterationsFromNode (node : ClassificationNode) (projectName : String)
    (parentPath : String := "") : IterationMap :=
  match node with
  | .mk name attrs children =>
    let currentPath := if parentPath = "" then name else parentPath ++ "\\" ++ name
    let base : IterationMap :=
      match attrs with
      | some d => mapSet ([] : IterationMap) currentPath d
      | none => []
    extractChildren base children projectName currentPath

/-- The `for (const child of node.children)` loop: merge each child's map
into the accumulated map with `Map.set`. -/
def extractChildren (acc : IterationMap) (cs : List ClassificationNode)
    (projectName currentPath : String) : IterationMap :=
  match cs with
  | [] => acc
  | c :: rest =>
    extractChildren (mapSetAll acc (extractIterationsFromNode c projectName currentPath))
      rest projectName currentPath

end

mutual

/-- The full backslash-joined paths of the dated nodes of a classification
tree, in depth-first order (reference definition for stating which keys the
iteration index holds). -/
def datedFullPaths (node : ClassificationNode) (parentPath : String) : List String :=
  match node with
  | .mk name attrs children =>
    let currentPath := if parentPath = "" then name else parentPath ++ "\\" ++ name
    (match attrs with
      | some _ => [currentPath]
      | none => []) ++ datedFullPathsList children currentPath

def datedFullPathsList (cs : List ClassificationNode) (currentPath : String) : List String :=
  match cs with
  | [] => []
  | c :: rest => datedFullPaths c currentPath ++ datedFullPathsList rest currentPath

end

/-! ## Path normalisation and lookup -/

/-- `normalizeIterationPath`: the raw path; the prefix-prepended path when
the raw path does not start with the project name; the prefix-stripped path
when the raw path starts with the project name followed by a backslash
(JS `substring(projectName.length + 1)`). -/
def normalizeIterationPath (iterationPath projectName : String) : List String :=
  let v1 := [iterationPath]
  let v2 :=
    if ¬ jsStartsWith iterationPath projectName then
      v1 ++ [projectName ++ "\\" ++ iterationPath]
    else v1
  if jsStartsWith iterationPath (projectName ++ "\\") then
    v2 ++ [iterationPath.drop (projectName.length + 1)]
  else v2

/-- `findIterationDates`: probe the index with each candidate spelling in
order and return the first hit. -/
def findIterationDates (iterationPath projectName : String)
    (iterationMap : IterationMap) : Option IterDates :=
  (normalizeIterationPath iterationPath projectName).findSome?
    (fun variation => mapFind iterationMap variation)

/-! ## Work item tree assembly -/

/-- One element of the `workItemRelations` array returned by the link
query: `source`/`target` may each be absent (the first relation of a link
query result has no source). Only the ids are consumed by the pipeline. -/
structure Relation where
  source : Option Nat
  target : Option Nat
deriving DecidableEq, Repr

/-- The fields of one entry of the bulk work-item details response that the
tree builder reads. Work-item types and states are plain strings, as in
the backend payload and the source's string-union types. -/
structure WorkItemFields where
  title : String
  state : String
  workItemType : String
  iterationPath : String
  areaPath : String
deriving DecidableEq, Repr

/-- The source's `WorkItemNode`. In the source, `children` holds references
to the very node objects the map stores for `childIds`; the pure model
records the identifiers in `childIds` (nodes built by `buildTreeFromLinks`
carry an empty `children` list, which no claim reads) and uses `children`
for the materialised trees that `calculateNodeProgress` and
`convertNodeToWorkItem` walk. -/
inductive WorkItemNode where
  | mk (id : Nat) (title state workItemType iterationPath areaPath : String)
      (children : List WorkItemNode) (childIds : List Nat)

def WorkItemNode.id : WorkItemNode → Nat
  | .mk i _ _ _ _ _ _ _ => i

def WorkItemNode.title : WorkItemNode → String
  | .mk _ t _ _ _ _ _ _ => t

def WorkItemNode.state : WorkItemNode → String
  | .mk _ _ s _ _ _ _ _ => s

def WorkItemNode.workItemType : WorkItemNode → String
  | .mk _ _ _ w _ _ _ _ => w

def WorkItemNode.iterationPath : WorkItemNode → String
  | .mk _ _ _ _ p _ _ _ => p

def WorkItemNode.areaPath : WorkItemNode → String
  | .mk _ _ _ _ _ a _ _ => a

def WorkItemNode.children : WorkItemNode → List WorkItemNode
  | .mk _ _ _ _ _ _ c _ => c

def WorkItemNode.childIds : WorkItemNode → List Nat
  | .mk _ _ _ _ _ _ _ ci => ci

/-- `parentNode.childIds.push(childId)` (the parallel
`parentNode.children.push(childNode)` aliases the map entry of `childId`,
see `WorkItemNode`). -/
def WorkItemNode.pushChildId (n : WorkItemNode) (c : Nat) : WorkItemNode :=
  match n with
  | .mk i t s w p a ch ci => .mk i t s w p a ch (ci ++ [c])

/-- Mutate the value stored under the first entry with key `k` in place. -/
def mapUpdate {α β : Type} [DecidableEq α] (m : List (α × β)) (k : α) (f : β → β) :
    List (α × β) :=
  match m with
  | [] => []
  | (k', v) :: rest => if k' = k then (k', f v) :: rest else (k', v) :: mapUpdate rest k f

/-- The body of the second-pass `workItemRelations.forEach` loop of
`buildTreeFromLinks`: when source and target are both present, both known
nodes and distinct, append the target id to the source node's children. -/
def addRelation (nodeMap : List (Nat × WorkItemNode)) (relation : Relation) :
    List (Nat × WorkItemNode) :=
  match relation.source, relation.target with
  | some parentId, some childId =>
    match mapFind nodeMap parentId, mapFind nodeMap childId with
    | some _, some _ =>
      if parentId ≠ childId then
        mapUpdate nodeMap parentId (fun n => n.pushChildId childId)
      else nodeMap
    | _, _ => nodeMap
  | _, _ => nodeMap

/-- The first pass of `buildTreeFromLinks`: one node per details entry,
with empty child lists. -/
def initialNodeMap (workItemDetails : List (Nat × WorkItemFields)) :
    List (Nat × WorkItemNode) :=
  workItemDetails.map (fun e =>
    (e.1, WorkItemNode.mk e.1 e.2.title e.2.state e.2.workItemType
      e.2.iterationPath e.2.areaPath [] []))

/-- `buildTreeFromLinks`: one node per details entry (first pass), then for
every relation whose source and target are both known and distinct, append
the target as a child of the source (second pass, `addRelation`). -/
def buildTreeFromLinks (workItemRelations : List Relation)
    (workItemDetails : List (Nat × WorkItemFields)) : List (Nat × WorkItemNode) :=
  workItemRelations.foldl addRelation (initialNodeMap workItemDetails)

/-- The children recorded for the node stored under `k` (empty when no such
node): the id-level view of `parentNode.children`/`parentNode.childIds`. -/
def childIdsAt (m : List (Nat × WorkItemNode)) (k : Nat) : List Nat :=
  match mapFind m k with
  | some n => n.childIds
  | none => []

/-- `IterationFilterOptions`; every field is optional as in the source
interface. -/
structure IterationFilterOptions where
  iterationPaths : Option (List String) := none
  useCurrentIterationContext : Option Bool := none
  useCurrentYearIterations : Option Bool := none
  startDate : Option SDate := none
  endDate : Option SDate := none
  requireIteration : Option Bool := none
deriving DecidableEq, Repr

/-- The date-based iteration filter block inside `findRootNodes` (the three
early `return`s): active when `iterationFilter?.startDate ||
iterationFilter?.endDate`, it drops a candidate root whose iteration dates
cannot be resolved, whose iteration ends before the filter start, or whose
iteration starts after the filter end. -/
def rootDateCheck (iterationFilter : Option IterationFilterOptions)
    (iterationMap : IterationMap) (projectName : String) (node : WorkItemNode) : Bool :=
  match iterationFilter with
  | none => true
  | some f =>
    if f.startDate.isSome || f.endDate.isSome then
      match findIterationDates node.iterationPath projectName iterationMap with
      | none => false
      | some iterationDates =>
        let iterStart := iterationDates.startDate
        let iterEnd := iterationDates.finishDate
        if (match f.startDate with
            | some fs => dLt iterEnd fs
            | none => false) then false
        else if (match f.endDate with
            | some fe => dLt fe iterStart
            | none => false) then false
        else true
    else true

/-- The `allChildIds` set of `findRootNodes`: every id occurring in some
node's `childIds` (a JS `Set`; the model keeps the flat list, whose
`contains` test agrees with `Set.has`). -/
def allChildIds (nodeMap : List (Nat × WorkItemNode)) : List Nat :=
  (nodeMap.map (fun e => e.2.childIds)).flatten

/-- `findRootNodes`: roots are the nodes whose id occurs in no node's
`childIds` and whose type equals the requested root type, subject to the
date-based iteration filter. -/
def findRootNodes (nodeMap : List (Nat × WorkItemNode)) (rootWorkItemType : String)
    (iterationMap : IterationMap) (projectName : String)
    (iterationFilter : Option IterationFilterOptions) : List WorkItemNode :=
  nodeMap.foldl (fun rootNodes e =>
    if ¬ (allChildIds nodeMap).contains e.2.id ∧ e.2.workItemType = rootWorkItemType then
      if rootDateCheck iterationFilter iterationMap projectName e.2 then
        rootNodes ++ [e.2]
      else rootNodes
    else rootNodes) []

/-! ## Progress computation and conversion -/

/-- `getChildWorkItemType`: the `hierarchy` lookup with `|| null` — `Task`,
`Bug` and any unmapped type give `null`. -/
def getChildWorkItemType (parentType : String) : Option String :=
  if parentType = "Epic" then some "Feature"
  else if parentType = "Feature" then some "User Story"
  else if parentType = "User Story" then some "Task"
  else none

/-- `getCompletedStates`: the `stateMap` lookup with the
`|| ['Done', 'Closed']` fallback for unmapped types. -/
def getCompletedStates (workItemType : String) : List String :=
  if workItemType = "Epic" then ["Done", "Closed"]
  else if workItemType = "Feature" then ["Done", "Closed"]
  else if workItemType = "User Story" then ["Done", "Closed", "Resolved"]
  else if workItemType = "Task" then ["Done", "Closed"]
  else if workItemType = "Bug" then ["Done", "Closed", "Resolved"]
  else ["Done", "Closed"]

structure Progress where
  total : Nat
  completed : Nat
deriving DecidableEq, Repr

/-- `calculateNodeProgress`: a leaf counts itself, a node with children
counts its direct children and those whose state is in the child's own
type's completed-state set. -/
def calculateNodeProgress (node : WorkItemNode) : Progress :=
  let completedStates := getCompletedStates node.workItemType
  if node.children.length = 0 then
    { total := 1, completed := if completedStates.contains node.state then 1 else 0 }
  else
    node.children.foldl (fun progress child =>
      let childStates := getCompletedStates child.workItemType
      { total := progress.total + 1,
        completed :=
          if childStates.contains child.state then progress.completed + 1
          else progress.completed })
      { total := 0, completed := 0 }

/-- The output record of `convertNodeToWorkItem`. The source stores the
progress pair under the dynamic field names `<childTypeName>Count` and
`completed<ChildType>Count` exactly when `getChildWorkItemType` yields a
child type; the model keeps that optional triple (child type, total,
completed) in `counts`. -/
inductive ConvertedWorkItem where
  | mk (id title state workItemType : String) (iterationStart iterationEnd : SDate)
      (children : List ConvertedWorkItem) (counts : Option (String × Nat × Nat))

def ConvertedWorkItem.id : ConvertedWorkItem → String
  | .mk i _ _ _ _ _ _ _ => i

def ConvertedWorkItem.title : ConvertedWorkItem → String
  | .mk _ t _ _ _ _ _ _ => t

def ConvertedWorkItem.state : ConvertedWorkItem → String
  | .mk _ _ s _ _ _ _ _ => s

def ConvertedWorkItem.workItemType : ConvertedWorkItem → String
  | .mk _ _ _ w _ _ _ _ => w

def ConvertedWorkItem.iterationStart : ConvertedWorkItem → SDate
  | .mk _ _ _ _ st _ _ _ => st

def ConvertedWorkItem.iterationEnd : ConvertedWorkItem → SDate
  | .mk _ _ _ _ _ en _ _ => en

def ConvertedWorkItem.children : ConvertedWorkItem → List ConvertedWorkItem
  | .mk _ _ _ _ _ _ c _ => c

def ConvertedWorkItem.counts : ConvertedWorkItem → Option (String × Nat × Nat)
  | .mk _ _ _ _ _ _ _ cnt => cnt

mutual

/-- `convertNodeToWorkItem`: `null` when the node's iteration dates do not
resolve; otherwise the output record with the progress of the full tree
node and only the successfully converted children. -/
def convertNodeToWorkItem (node : WorkItemNode) (iterationMap : IterationMap)
    (projectName : String) : Option ConvertedWorkItem :=
  match node with
  | .mk nid ntitle nstate ntype npath _ nchildren _ =>
    match findIterationDates npath projectName iterationMap with
    | none => none
    | some iterationDates =>
      let progress := calculateNodeProgress node
      let childType := getChildWorkItemType ntype
      let counts := childType.map (fun ct => (ct, progress.total, progress.completed))
      some (.mk (toString nid) ntitle nstate ntype
        iterationDates.startDate iterationDates.finishDate
        (convertChildren nchildren iterationMap projectName) counts)

/-- The `node.children.forEach` loop: keep each child whose conversion
succeeds, in order. -/
def convertChildren (cs : List WorkItemNode) (iterationMap : IterationMap)
    (projectName : String) : List ConvertedWorkItem :=
  match cs with
  | [] => []
  | c :: rest =>
    match convertNodeToWorkItem c iterationMap projectName with
    | some w => w :: convertChildren rest iterationMap projectName
    | none => convertChildren rest iterationMap projectName

end

/-! ## Query builder (`buildWorkItemTreeQuery`) -/

def stateFilter : String :=
  "AND [Source].[System.State] <> 'Closed' AND [Source].[System.State] <> 'Removed'"

/-- The `iterationFilterClause` local of `buildWorkItemTreeQuery`: an OR'd
equality over the given iteration paths when a non-empty list is supplied,
else the non-empty-iteration floor unless `requireIteration` is explicitly
`false`, else empty. -/
def iterationFilterClauseOf (iterationFilter : Option IterationFilterOptions) : String :=
  match iterationFilter with
  | none => ""
  | some f =>
    match f.iterationPaths with
    | some paths =>
      if paths.length > 0 then
        "AND (" ++ String.intercalate " OR "
          (paths.map (fun path => "[Source].[System.IterationPath] = '" ++ path ++ "'")) ++ ")"
      else if f.requireIteration ≠ some false then
        "AND [Source].[System.IterationPath] <> ''"
      else ""
    | none =>
      if f.requireIteration ≠ some false then
        "AND [Source].[System.IterationPath] <> ''"
      else ""

/-- The query template up to and including the line that interpolates
`${iterationFilterClause}` (the template's leading newline and indentation
already removed by the source's `.trim()`). -/
def queryHead (project rootWorkItemType : String) : String :=
  "SELECT [System.Id], \n           [System.Title], \n           [System.State], \n           [System.WorkItemType],\n           [System.IterationPath],\n           [System.AreaPath],\n           [System.TeamProject]\n    FROM WorkItemLinks\n    WHERE [Source].[System.TeamProject] = '" ++ project ++ "'\n      AND [Source].[System.WorkItemType] = '" ++ rootWorkItemType ++ "'\n      " ++ stateFilter ++ "\n      "

/-- The query template after the interpolated iteration filter clause (the
template's trailing newline and indentation already removed by the
source's `.trim()`). -/
def queryTail (project : String) : String :=
  "\n      AND [System.Links.LinkType] = 'System.LinkTypes.Hierarchy-Forward'\n      AND [Target].[System.TeamProject] = '" ++ project ++ "'\n    MODE (Recursive, ReturnMatchingChildren)"

/-- `buildWorkItemTreeQuery`: the trimmed template with the project, root
type, state filter and iteration filter clause interpolated. `maxDepth` is
accepted and unused, as in the source. -/
def buildWorkItemTreeQuery (project rootWorkItemType : String)
    (iterationFilter : Option IterationFilterOptions := none) (maxDepth : Nat := 3) :
    String :=
  queryHead project rootWorkItemType ++ iterationFilterClauseOf iterationFilter
    ++ queryTail project

/-! ## Iteration context (`getCurrentIterationContext`) -/

/-- The pure core of `getCurrentIterationContext`, given the iteration map
built by `extractIterationsFromNode` from the fetched classification tree
and the current date: collect, in map order, the paths of the iterations
fully contained in the quarter window (line 153 of the source; entries of
the model's map always carry both dates, so the source's truthiness skip
of undated entries is vacuous here). -/
def getCurrentIterationContext (now : SDate) (iterationMap : IterationMap) : List String :=
  let qr := getQuarterRange now
  iterationMap.foldl (fun iterationPaths e =>
    if dLe qr.previousQuarterStart e.2.startDate
        && dLe e.2.finishDate qr.twoQuartersAfterEnd then
      iterationPaths ++ [e.1]
    else iterationPaths) []

/-! ## Value stream grouping (steps 6 and 7 of `fetchWorkItemsLocal`) -/

structure ValueStream where
  id : String
  name : String
  workItems : List ConvertedWorkItem

/-- `name.replace(/[^a-zA-Z0-9]/g, '-')`. -/
def replaceNonAlnum (name : String) : String :=
  String.mk (name.data.map (fun c => if c.isAlphanum then c else '-'))

/-- `name.split('\\\\').pop() || name`: the last backslash-delimited
segment, falling back to the whole string when that segment is the (falsy)
empty string (`split` never returns an empty array, so `pop()` is never
`undefined`). -/
def lastSegmentOrSelf (name : String) : String :=
  match (jsSplitOnChar '\\' name.data).getLast? with
  | some seg => if seg.isEmpty then name else String.mk seg
  | none => name

/-- The body of the `rootNodes.forEach` loop of step 6 of
`fetchWorkItemsLocal`: convert the root (dropping it when conversion
fails), create its area-path bucket when missing
(`if (!valueStreamMap.has(areaPath)) set(areaPath, [])`), and push the
converted item onto the bucket. -/
def addRootToValueStreamMap (iterationMap : IterationMap) (project : String)
    (vsm : List (String × List ConvertedWorkItem)) (rootNode : WorkItemNode) :
    List (String × List ConvertedWorkItem) :=
  match convertNodeToWorkItem rootNode iterationMap project with
  | some workItem =>
    let areaPath := rootNode.areaPath
    let vsm1 := if (mapFind vsm areaPath).isSome then vsm else mapSet vsm areaPath []
    mapSet vsm1 areaPath ((mapFind vsm1 areaPath).getD [] ++ [workItem])
  | none => vsm

/-- Steps 6 and 7 of `fetchWorkItemsLocal`: convert each root (dropping
roots whose conversion fails), bucket the converted items by the root's
area path in first-appearance order, drop empty buckets, and format each
bucket as a `ValueStream`. -/
def groupIntoValueStreams (rootNodes : List WorkItemNode) (iterationMap : IterationMap)
    (project : String) : List ValueStream :=
  let valueStreamMap : List (String × List ConvertedWorkItem) :=
    rootNodes.foldl (addRootToValueStreamMap iterationMap project) []
  (valueStreamMap.filter (fun e => e.2.length > 0)).map (fun e =>
    { id := replaceNonAlnum e.1, name := lastSegmentOrSelf e.1, workItems := e.2 })

/-! ## Specification-side reference definitions -/

/-- Reference definition for the grouping theorems: the successfully
converted items of the roots whose area path is `gp`, in root order — the
contents one bucket of `groupIntoValueStreams` must hold. -/
def convertedItemsFor (roots : List WorkItemNode) (iterationMap : IterationMap)
    (project : String) (gp : String) : List ConvertedWorkItem :=
  (roots.filter (fun r => r.areaPath = gp)).filterMap
    (fun r => convertNodeToWorkItem r iterationMap project)

/-- The value-stream display-name rule as the specification words it: the
last backslash-delimited segment of the grouping path, or the full path
when the path contains no backslash. Stated for comparison with the
source's `lastSegmentOrSelf`. -/
def specLastSegment (name : String) : String :=
  if name.data.contains '\\' then
    String.mk ((jsSplitOnChar '\\' name.data).getLastD [])
  else name

/-! ## Concrete instances used by counterexamples and witnesses -/

def cexDates : IterDates := ⟨⟨2024, 0, 1⟩, ⟨2024, 0, 14⟩⟩

/-- A classification tree whose root "ProjectX" (undated) holds one dated
iteration node "Sprint 1". -/
def cexTree1 : ClassificationNode :=
  .mk "ProjectX" none [.mk "Sprint 1" (some cexDates) []]

def cexRels3 : List Relation := [⟨some 5, some 2⟩]

def cexDets3 : List (Nat × WorkItemFields) := [(2, ⟨"E2", "New", "Epic", "", ""⟩)]

def cexRels3w : List Relation := [⟨some 1, some 2⟩]

def cexDets3w : List (Nat × WorkItemFields) :=
  [(1, ⟨"E1", "New", "Epic", "", ""⟩), (2, ⟨"F2", "New", "Feature", "", ""⟩)]

/-- The node built for id 1 from `cexRels3w`/`cexDets3w`. -/
def cexRoot3w : WorkItemNode := .mk 1 "E1" "New" "Epic" "" "" [] [2]

def cexRels4 : List Relation := [⟨some 1, some 2⟩, ⟨some 1, some 1⟩]

def cexDets4 : List (Nat × WorkItemFields) :=
  [(1, ⟨"E1", "New", "Epic", "", ""⟩), (2, ⟨"F2", "New", "Feature", "", ""⟩)]

def cexNode6 : WorkItemNode := .mk 10 "E" "New" "Epic" "Proj\\I1" "Area" [] []

def cexMap6 : List (Nat × WorkItemNode) := [(10, cexNode6)]

/-- The iteration "Proj\I1" spans 2024-04-01 through 2024-04-14 (JS months
are 0-based, so April is month 3). -/
def cexIterMap6 : IterationMap := [("Proj\\I1", ⟨⟨2024, 3, 1⟩, ⟨2024, 3, 14⟩⟩)]

/-- An explicit calendar range filter [2024-01-01, 2024-03-31]. -/
def cexRange6 : IterationFilterOptions :=
  { startDate := some ⟨2024, 0, 1⟩, endDate := some ⟨2024, 2, 31⟩ }

/-- A candidate root whose iteration path resolves to no dates. -/
def cexNode6u : WorkItemNode := .mk 11 "E" "New" "Epic" "Nowhere" "Area" [] []

def cexFilt8 : IterationFilterOptions := { iterationPaths := some ["Proj\\S1"] }

/-- A root whose grouping path ends in a backslash (its last
backslash-delimited segment is empty). -/
def cexRoot9 : WorkItemNode := .mk 30 "E" "New" "Epic" "Proj\\S1" "Proj\\Team A\\" [] []

def cexIterMap9 : IterationMap := [("Proj\\S1", cexDates)]

/-- Scenario C of the specification: two Epics in area paths "Proj\Team A"
and "Proj\Team B". -/
def cexRootsC : List WorkItemNode :=
  [.mk 10 "E10" "New" "Epic" "Proj\\S1" "Proj\\Team A" [] [],
   .mk 20 "E20" "New" "Epic" "Proj\\S1" "Proj\\Team B" [] []]

def cexChild10a : WorkItemNode := .mk 41 "F1" "New" "Feature" "Proj\\S1" "A" [] []

/-- A child whose iteration path resolves to no dates. -/
def cexChild10b : WorkItemNode := .mk 42 "F2" "New" "Feature" "Ghost" "A" [] []

def cexNode10 : WorkItemNode :=
  .mk 40 "E" "New" "Epic" "Proj\\S1" "A" [cexChild10a, cexChild10b] []

/-- The output `convertNodeToWorkItem` produces for `cexNode10` against
`cexIterMap9`: the dropped child F2 is missing from `children`, while the
counts still reflect both direct children. -/
def cexConverted10 : ConvertedWorkItem :=
  .mk "40" "E" "New" "Epic" ⟨2024, 0, 1⟩ ⟨2024, 0, 14⟩
    [.mk "41" "F1" "New" "Feature" ⟨2024, 0, 1⟩ ⟨2024, 0, 14⟩ [] (some ("User Story", 1, 0))]
    (some ("Feature", 2, 0))

/-! ## Map lemmas -/

theorem mapFind_mapSet_isSome {α β : Type} [DecidableEq α] (m : List (α × β)) (k : α)
    (v : β) (k' : α) :
    (mapFind (mapSet m k v) k').isSome ↔ k = k' ∨ (mapFind m k').isSome := by
  induction m with
  | nil =>
    by_cases h : k = k' <;> simp [mapSet, mapFind, h]
  | cons e rest ih =>
    obtain ⟨ek, ev⟩ := e
    simp only [mapSet]
    by_cases h1 : ek = k
    · subst h1
      simp only [if_pos rfl]
      by_cases h2 : ek = k' <;> simp [mapFind, h2]
    · rw [if_neg h1]
      by_cases h2 : ek = k' <;> simp [mapFind, h2, ih]

theorem mapSetAll_cons {α β : Type} [DecidableEq α] (dst : List (α × β)) (e : α × β)
    (rest : List (α × β)) :
    mapSetAll dst (e :: rest) = mapSetAll (mapSet dst e.1 e.2) rest := rfl

theorem mapFind_mapSetAll_isSome {α β : Type} [DecidableEq α]
    (dst src : List (α × β)) (k : α) :
    (mapFind (mapSetAll dst src) k).isSome ↔
      (mapFind dst k).isSome ∨ (mapFind src k).isSome := by
  induction src generalizing dst with
  | nil => simp [mapSetAll, mapFind]
  | cons e rest ih =>
    rw [mapSetAll_cons, ih, mapFind_mapSet_isSome]
    by_cases h : e.1 = k <;> simp [mapFind, h]

/-! ## Iteration index theorems -/

mutual

theorem extract_projectName_irrelevant : ∀ (t : ClassificationNode) (o o' pp : String),
    extractIterationsFromNode t o pp = extractIterationsFromNode t o' pp
  | .mk name attrs children, o, o', pp => by
    simp only [extractIterationsFromNode]
    exact extractChildren_projectName_irrelevant _ children o o' _

theorem extractChildren_projectName_irrelevant :
    ∀ (acc : IterationMap) (cs : List ClassificationNode) (o o' cp : String),
    extractChildren acc cs o cp = extractChildren acc cs o' cp
  | _, [], _, _, _ => rfl
  | acc, c :: rest, o, o', cp => by
    simp only [extractChildren]
    rw [extract_projectName_irrelevant c o o' cp]
    exact extractChildren_projectName_irrelevant _ rest o o' cp

end

mutual

theorem mapFind_extract_isSome : ∀ (t : ClassificationNode) (o pp k : String),
    (mapFind (extractIterationsFromNode t o pp) k).isSome ↔ k ∈ datedFullPaths t pp
  | .mk name attrs children, o, pp, k => by
    simp only [extractIterationsFromNode, datedFullPaths]
    rw [mapFind_extractChildren_isSome]
    cases attrs with
    | none => simp [mapFind]
    | some d =>
      by_cases h : (if pp = "" then name else pp ++ "\\" ++ name) = k
      · simp [mapSet, mapFind, h, List.mem_cons]
      · simp [mapSet, mapFind, h, Ne.symm h, List.mem_cons]

theorem mapFind_extractChildren_isSome :
    ∀ (acc : IterationMap) (cs : List ClassificationNode) (o cp k : String),
    (mapFind (extractChildren acc cs o cp) k).isSome ↔
      (mapFind acc k).isSome ∨ k ∈ datedFullPathsList cs cp
  | acc, [], o, cp, k => by simp [extractChildren, datedFullPathsList]
  | acc, c :: rest, o, cp, k => by
    simp only [extractChildren, datedFullPathsList]
    rw [mapFind_extractChildren_isSome _ rest o cp k, mapFind_mapSetAll_isSome,
      mapFind_extract_isSome c o cp k]
    simp [List.mem_append]
    tauto

end

/-- C1: the claim says `extractIterationsFromNode` registers each dated
node under its full path and additionally under the org-prefix-stripped
path and the bare node name. Counterexample: in `cexTree1` the node
"Sprint 1" (full path "ProjectX\Sprint 1") is registered under its full
path only; the stripped alias and bare name "Sprint 1" are absent from the
index. -/
theorem c1_counterexample :
    mapFind (extractIterationsFromNode cexTree1 "ProjectX" "") "ProjectX\\Sprint 1"
        = some cexDates
      ∧ mapFind (extractIterationsFromNode cexTree1 "ProjectX" "") "Sprint 1" = none := by
  decide

/-- C1 (amended): `extractIterationsFromNode` registers each dated node
under its full backslash-joined path only — the org scope name is ignored
entirely (the alias registrations are commented out in the source), and a
path is a key of the index exactly when it is the full path of some dated
node. -/
theorem c1_amended_index_full_path_only :
    (∀ (t : ClassificationNode) (o o' pp : String),
        extractIterationsFromNode t o pp = extractIterationsFromNode t o' pp) ∧
    (∀ (t : ClassificationNode) (o pp k : String),
        (mapFind (extractIterationsFromNode t o pp) k).isSome ↔ k ∈ datedFullPaths t pp) :=
  ⟨extract_projectName_irrelevant, mapFind_extract_isSome⟩

/-! ## Path normalisation theorems -/

theorem normalizeIterationPath_eq (p o : String) :
    normalizeIterationPath p o =
      [p] ++ (if jsStartsWith p o then [] else [o ++ "\\" ++ p])
        ++ (if jsStartsWith p (o ++ "\\") then [p.drop (o.length + 1)] else []) := by
  by_cases h1 : jsStartsWith p o <;> by_cases h2 : jsStartsWith p (o ++ "\\") <;>
    simp [normalizeIterationPath, h1, h2]

theorem isSome_findSome?_of_mem {α β : Type} (f : α → Option β) (l : List α) (a : α)
    (ha : a ∈ l) (hf : (f a).isSome) : (l.findSome? f).isSome := by
  induction l with
  | nil => cases ha
  | cons x xs ih =>
    rw [List.findSome?]
    cases hx : f x with
    | some b => simp
    | none =>
      rcases List.mem_cons.mp ha with h | h
      · subst h; rw [hx] at hf; cases hf
      · exact ih h

/-- C2: the claim says lookup succeeds whenever the index holds the record
under P, `O\P`, or P-with-O-prefix-stripped, for any P and O.
Counterexample: P = "ProjectXtra\Sprint 9" starts with O = "ProjectX" but
not with "ProjectX\", so the only candidate probed is P itself and a record
registered under `O\P` is not found. -/
theorem c2_counterexample :
    findIterationDates "ProjectXtra\\Sprint 9" "ProjectX"
        [("ProjectX\\ProjectXtra\\Sprint 9", cexDates)] = none
      ∧ mapFind [("ProjectX\\ProjectXtra\\Sprint 9", cexDates)]
          ("ProjectX" ++ "\\" ++ "ProjectXtra\\Sprint 9") = some cexDates := by
  decide

/-- C2 (amended): `normalizeIterationPath` produces, in order, the raw path;
the prefix-prepended path when the raw path does not start with the org
scope name; the prefix-stripped path when the raw path starts with the org
scope name followed by a backslash. `findIterationDates` probes the
candidates in order and returns the first hit, so it succeeds on a record
registered under P; under `O\P` provided P does not start with O; and under
P-with-prefix-stripped provided P starts with `O\`. -/
theorem c2_amended_lookup :
    (∀ p o : String, normalizeIterationPath p o =
        [p] ++ (if jsStartsWith p o then [] else [o ++ "\\" ++ p])
          ++ (if jsStartsWith p (o ++ "\\") then [p.drop (o.length + 1)] else [])) ∧
    (∀ (p o : String) (m : IterationMap) (d : IterDates),
        mapFind m p = some d → findIterationDates p o m = some d) ∧
    (∀ (p o : String) (m : IterationMap), ¬ jsStartsWith p o →
        (mapFind m (o ++ "\\" ++ p)).isSome → (findIterationDates p o m).isSome) ∧
    (∀ (p o : String) (m : IterationMap), jsStartsWith p (o ++ "\\") →
        (mapFind m (p.drop (o.length + 1))).isSome →
        (findIterationDates p o m).isSome) := by
  refine ⟨normalizeIterationPath_eq, ?_, ?_, ?_⟩
  · intro p o m d h
    rw [findIterationDates, normalizeIterationPath_eq]
    simp [List.findSome?, h]
  · intro p o m h1 h2
    rw [findIterationDates]
    refine isSome_findSome?_of_mem _ _ (o ++ "\\" ++ p) ?_ h2
    rw [normalizeIterationPath_eq]
    simp [h1]
  · intro p o m h1 h2
    rw [findIterationDates]
    refine isSome_findSome?_of_mem _ _ (p.drop (o.length + 1)) ?_ h2
    rw [normalizeIterationPath_eq]
    simp [h1]

/-- C2 witness: Scenario A of the specification — path "Sprint 1" with org
scope "ProjectX" resolves against a record registered under
"ProjectX\Sprint 1" via the prefix-prepended candidate. -/
theorem c2_amended_lookup_witness :
    (findIterationDates "Sprint 1" "ProjectX" [("ProjectX\\Sprint 1", cexDates)]).isSome :=
  c2_amended_lookup.2.2.1 "Sprint 1" "ProjectX" _ (by decide) (by decide)

/-! ## Tree assembly lemmas -/

theorem pushChildId_childIds (n : WorkItemNode) (c : Nat) :
    (n.pushChildId c).childIds = n.childIds ++ [c] := by
  cases n; rfl

theorem mapFind_mapUpdate {α β : Type} [DecidableEq α] (m : List (α × β)) (k : α)
    (f : β → β) (k' : α) :
    mapFind (mapUpdate m k f) k' =
      if k = k' then (mapFind m k').map f else mapFind m k' := by
  induction m with
  | nil => by_cases h : k = k' <;> simp [mapUpdate, mapFind, h]
  | cons e rest ih =>
    obtain ⟨ek, ev⟩ := e
    simp only [mapUpdate]
    by_cases h1 : ek = k
    · subst h1
      simp only [if_pos rfl]
      by_cases h2 : ek = k' <;> simp [mapFind, h2]
    · rw [if_neg h1]
      by_cases h2 : ek = k'
      · have h3 : ¬ k = k' := fun hh => h1 (h2.trans hh.symm)
        simp [mapFind, h2, h3]
      · simp [mapFind, h2, ih]

theorem mem_of_mapFind_eq_some {α β : Type} [DecidableEq α] {m : List (α × β)} {k : α}
    {v : β} (h : mapFind m k = some v) : (k, v) ∈ m := by
  induction m with
  | nil => cases h
  | cons e rest ih =>
    obtain ⟨ek, ev⟩ := e
    rw [mapFind] at h
    by_cases h1 : ek = k
    · rw [if_pos h1] at h
      cases h
      subst h1
      exact List.mem_cons_self _ _
    · rw [if_neg h1] at h
      exact List.mem_cons_of_mem _ (ih h)

theorem mapFind_addRelation_isSome (m : List (Nat × WorkItemNode)) (r : Relation)
    (k : Nat) : (mapFind (addRelation m r) k).isSome = (mapFind m k).isSome := by
  unfold addRelation
  repeat' split
  all_goals try rfl
  rw [mapFind_mapUpdate]
  split
  · simp
  · rfl

theorem mapFind_foldl_addRelation_isSome (l : List Relation)
    (m : List (Nat × WorkItemNode)) (k : Nat) :
    (mapFind (l.foldl addRelation m) k).isSome = (mapFind m k).isSome := by
  induction l generalizing m with
  | nil => rfl
  | cons a rest ih => rw [List.foldl_cons, ih, mapFind_addRelation_isSome]

theorem childIdsAt_mapUpdate_pushChildId (m : List (Nat × WorkItemNode)) (p c s : Nat)
    (h : t ∈ childIdsAt m s) :
    t ∈ childIdsAt (mapUpdate m p (fun n => n.pushChildId c)) s := by
  rw [childIdsAt] at h ⊢
  rw [mapFind_mapUpdate]
  by_cases hk : p = s
  · rw [if_pos hk]
    cases hms : mapFind m s with
    | none => rw [hms] at h; cases h
    | some n =>
      rw [hms] at h
      simp [pushChildId_childIds]
      exact Or.inl h
  · rw [if_neg hk]
    exact h

theorem childIdsAt_addRelation_mono (m : List (Nat × WorkItemNode)) (r : Relation)
    (s t : Nat) (h : t ∈ childIdsAt m s) : t ∈ childIdsAt (addRelation m r) s := by
  unfold addRelation
  repeat' split
  all_goals try exact h
  exact childIdsAt_mapUpdate_pushChildId m _ _ s h

theorem childIdsAt_addRelation_self (m : List (Nat × WorkItemNode)) (s t : Nat)
    (hs : (mapFind m s).isSome = true) (ht : (mapFind m t).isSome = true)
    (hne : s ≠ t) :
    t ∈ childIdsAt (addRelation m (Relation.mk (some s) (some t))) s := by
  obtain ⟨ns, hns⟩ := Option.isSome_iff_exists.mp hs
  obtain ⟨nt, hnt⟩ := Option.isSome_iff_exists.mp ht
  have hstep : addRelation m (Relation.mk (some s) (some t))
      = mapUpdate m s (fun n => n.pushChildId t) := by
    unfold addRelation
    simp only [hns, hnt]
    rw [if_pos hne]
  rw [hstep, childIdsAt, mapFind_mapUpdate, if_pos rfl, hns]
  simp [pushChildId_childIds]

theorem childIdsAt_foldl_mono (l : List Relation) (m : List (Nat × WorkItemNode))
    (s t : Nat) (h : t ∈ childIdsAt m s) : t ∈ childIdsAt (l.foldl addRelation m) s := by
  induction l generalizing m with
  | nil => exact h
  | cons a rest ih =>
    rw [List.foldl_cons]
    exact ih _ (childIdsAt_addRelation_mono m a s t h)

theorem childIdsAt_foldl_of_mem (l : List Relation) (m : List (Nat × WorkItemNode))
    (r : Relation) (s t : Nat) (hr : r ∈ l) (hsrc : r.source = some s)
    (htgt : r.target = some t) (hne : s ≠ t) (hs : (mapFind m s).isSome = true)
    (ht : (mapFind m t).isSome = true) :
    t ∈ childIdsAt (l.foldl addRelation m) s := by
  induction l generalizing m with
  | nil => cases hr
  | cons a rest ih =>
    rw [List.foldl_cons]
    rcases List.mem_cons.mp hr with h | h
    · subst h
      obtain ⟨os, ot⟩ := r
      simp only at hsrc htgt
      subst hsrc
      subst htgt
      exact childIdsAt_foldl_mono rest _ s t (childIdsAt_addRelation_self m s t hs ht hne)
    · exact ih _ h (by rw [mapFind_addRelation_isSome]; exact hs)
        (by rw [mapFind_addRelation_isSome]; exact ht)

theorem mem_allChildIds_of_childIdsAt (m : List (Nat × WorkItemNode)) (s t : Nat)
    (h : t ∈ childIdsAt m s) : t ∈ allChildIds m := by
  rw [childIdsAt] at h
  cases hf : mapFind m s with
  | none => rw [hf] at h; cases h
  | some n =>
    rw [hf] at h
    have hm : (s, n) ∈ m := mem_of_mapFind_eq_some hf
    rw [allChildIds]
    exact List.mem_flatten.mpr ⟨n.childIds, List.mem_map.mpr ⟨(s, n), hm, rfl⟩, h⟩

/-! ## Root detection lemmas -/

theorem foldl_roots_eq (ac : List Nat) (rt : String) (imap : IterationMap)
    (proj : String) (filt : Option IterationFilterOptions)
    (l : List (Nat × WorkItemNode)) (acc : List WorkItemNode) :
    l.foldl (fun rootNodes e =>
        if ¬ ac.contains e.2.id ∧ e.2.workItemType = rt then
          if rootDateCheck filt imap proj e.2 then rootNodes ++ [e.2] else rootNodes
        else rootNodes) acc =
      acc ++ (l.filter (fun e =>
        decide (¬ ac.contains e.2.id ∧ e.2.workItemType = rt)
          && rootDateCheck filt imap proj e.2)).map Prod.snd := by
  induction l generalizing acc with
  | nil => simp
  | cons a rest ih =>
    rw [List.foldl_cons, List.filter_cons]
    by_cases h1 : ¬ ac.contains a.2.id ∧ a.2.workItemType = rt
    · by_cases h2 : rootDateCheck filt imap proj a.2 = true
      · rw [if_pos h1, if_pos h2, ih,
          if_pos (by rw [h2, Bool.and_true]; exact decide_eq_true h1)]
        simp
      · rw [if_pos h1, if_neg h2, ih, if_neg (by simp [h2])]
    · rw [if_neg h1, ih,
        if_neg (by simp only [Bool.and_eq_true, decide_eq_true_eq]
                   exact fun hc => h1 hc.1)]

theorem findRootNodes_eq (m : List (Nat × WorkItemNode)) (rt : String)
    (imap : IterationMap) (proj : String) (filt : Option IterationFilterOptions) :
    findRootNodes m rt imap proj filt =
      (m.filter (fun e =>
        decide (¬ (allChildIds m).contains e.2.id ∧ e.2.workItemType = rt)
          && rootDateCheck filt imap proj e.2)).map Prod.snd := by
  rw [findRootNodes, foldl_roots_eq]
  rfl

theorem mem_findRootNodes (m : List (Nat × WorkItemNode)) (rt : String)
    (imap : IterationMap) (proj : String) (filt : Option IterationFilterOptions)
    (n : WorkItemNode) :
    n ∈ findRootNodes m rt imap proj filt ↔
      ∃ e ∈ m, e.2 = n ∧ (¬ (allChildIds m).contains e.2.id ∧ e.2.workItemType = rt) ∧
        rootDateCheck filt imap proj e.2 = true := by
  rw [findRootNodes_eq]
  simp only [List.mem_map, List.mem_filter, Bool.and_eq_true, decide_eq_true_eq]
  constructor
  · rintro ⟨e, ⟨hem, hcond, hcheck⟩, hsnd⟩
    exact ⟨e, hem, hsnd, hcond, hcheck⟩
  · rintro ⟨e, hem, hsnd, hcond, hcheck⟩
    exact ⟨e, ⟨hem, hcond, hcheck⟩, hsnd⟩

/-- C3: the claim says no node whose id appears as the target of any input
relation can be a root. Counterexample: the relation list `cexRels3` has a
relation with target 2, but its source (id 5) is not a known node, so the
relation is discarded and node 2 is still returned as a root. -/
theorem c3_counterexample :
    (findRootNodes (buildTreeFromLinks cexRels3 cexDets3) "Epic" [] "Proj" none).map
        WorkItemNode.id = [2]
      ∧ cexRels3.any (fun r => r.target == some 2) = true := by
  decide

/-- C3 (amended): no node whose id appears as the target of a relation
whose source and target ids are both known nodes of the assembled map and
differ from each other is ever included in `findRootNodes`' root list,
whatever the root type and filter. -/
theorem c3_amended_root_exclusivity :
    ∀ (rels : List Relation) (dets : List (Nat × WorkItemFields)) (rt proj : String)
      (imap : IterationMap) (filt : Option IterationFilterOptions) (r : Relation)
      (s t : Nat) (n : WorkItemNode),
      r ∈ rels → r.source = some s → r.target = some t → s ≠ t →
      (mapFind (buildTreeFromLinks rels dets) s).isSome = true →
      (mapFind (buildTreeFromLinks rels dets) t).isSome = true →
      n ∈ findRootNodes (buildTreeFromLinks rels dets) rt imap proj filt →
      n.id ≠ t := by
  intro rels dets rt proj imap filt r s t n hr hsrc htgt hne hfs hft hmem heq
  have hs0 : (mapFind (initialNodeMap dets) s).isSome = true := by
    rw [← mapFind_foldl_addRelation_isSome rels]
    exact hfs
  have ht0 : (mapFind (initialNodeMap dets) t).isSome = true := by
    rw [← mapFind_foldl_addRelation_isSome rels]
    exact hft
  have h1 : t ∈ childIdsAt (buildTreeFromLinks rels dets) s :=
    childIdsAt_foldl_of_mem rels _ r s t hr hsrc htgt hne hs0 ht0
  have h2 : t ∈ allChildIds (buildTreeFromLinks rels dets) :=
    mem_allChildIds_of_childIdsAt _ s t h1
  rw [mem_findRootNodes] at hmem
  obtain ⟨e, _, hen, ⟨hnc, _⟩, _⟩ := hmem
  apply hnc
  have : e.2.id = t := by rw [hen, heq]
  rw [this]
  exact List.elem_iff.mpr h2

/-- C3 witness: for the concrete input `cexRels3w`/`cexDets3w` the only
root is node 1, and the amended theorem applies to show its id differs
from the registered relation target 2. -/
theorem c3_amended_root_exclusivity_witness : cexRoot3w.id ≠ 2 :=
  c3_amended_root_exclusivity cexRels3w cexDets3w "Epic" "Proj" [] none
    ⟨some 1, some 2⟩ 1 2 cexRoot3w (by decide) rfl rfl (by decide)
    (by decide) (by decide)
    (by
      have h : findRootNodes (buildTreeFromLinks cexRels3w cexDets3w) "Epic" [] "Proj" none
          = [cexRoot3w] := rfl
      rw [h]
      exact List.mem_singleton.mpr rfl)

/-- C4: tree assembly on the claim's Scenario B — relations (1,2) and the
self-relation (1,1) with details for ids 1 (Epic) and 2 (Feature) — gives
node 1 exactly one child (id 2), the self-relation is discarded, and the
Epic root list is exactly [1]. -/
theorem c4_self_relation_discarded :
    ((mapFind (buildTreeFromLinks cexRels4 cexDets4) 1).map WorkItemNode.childIds)
        = some [2]
      ∧ (findRootNodes (buildTreeFromLinks cexRels4 cexDets4) "Epic" [] "Proj" none).map
          WorkItemNode.id = [1] := by
  decide

/-! ## Progress computation theorems -/

theorem calculateNodeProgress_foldl (children : List WorkItemNode) (t0 c0 : Nat) :
    children.foldl (fun progress child =>
      let childStates := getCompletedStates child.workItemType
      { total := progress.total + 1,
        completed :=
          if childStates.contains child.state then progress.completed + 1
          else progress.completed })
      ({ total := t0, completed := c0 } : Progress) =
    ({ total := t0 + children.length,
       completed := c0 + children.countP
         (fun c => (getCompletedStates c.workItemType).contains c.state) } : Progress) := by
  induction children generalizing t0 c0 with
  | nil => simp
  | cons a rest ih =>
    rw [List.foldl_cons, ih, List.countP_cons, List.length_cons]
    by_cases h : (getCompletedStates a.workItemType).contains a.state
    · simp only [h, if_pos, Progress.mk.injEq, decide_eq_true_eq, if_true]
      omega
    · simp only [h, Progress.mk.injEq]
      simp [h]
      omega

theorem calculateNodeProgress_eq (node : WorkItemNode) :
    calculateNodeProgress node =
      if node.children.length = 0 then
        { total := 1,
          completed :=
            if (getCompletedStates node.workItemType).contains node.state then 1 else 0 }
      else
        { total := node.children.length,
          completed := node.children.countP
            (fun c => (getCompletedStates c.workItemType).contains c.state) } := by
  rw [calculateNodeProgress]
  by_cases h : node.children.length = 0
  · simp [h]
  · rw [if_neg h, if_neg h, calculateNodeProgress_foldl]
    simp

/-- C5: `calculateNodeProgress` counts, for a node with children, the
direct children (total) and the direct children whose state is in the
child's own type's completed-state set (completed); for a leaf, total is 1
and completed is 1 exactly when its own state is in its own type's set.
The completed-state table is Done/Closed for Epic, Feature, Task and any
unmapped type, Done/Closed/Resolved for User Story and Bug; completed
never exceeds total, and total is the direct child count, never a deep
recursive count. -/
theorem c5_progress_counts :
    (∀ node : WorkItemNode,
      (calculateNodeProgress node).total
          = (if node.children.length = 0 then 1 else node.children.length) ∧
      (calculateNodeProgress node).completed
          = (if node.children.length = 0 then
              (if (getCompletedStates node.workItemType).contains node.state then 1 else 0)
            else node.children.countP
              (fun c => (getCompletedStates c.workItemType).contains c.state)) ∧
      (calculateNodeProgress node).completed ≤ (calculateNodeProgress node).total) ∧
    getCompletedStates "Epic" = ["Done", "Closed"] ∧
    getCompletedStates "Feature" = ["Done", "Closed"] ∧
    getCompletedStates "User Story" = ["Done", "Closed", "Resolved"] ∧
    getCompletedStates "Task" = ["Done", "Closed"] ∧
    getCompletedStates "Bug" = ["Done", "Closed", "Resolved"] ∧
    (∀ ty : String, ty ∉ ["Epic", "Feature", "User Story", "Task", "Bug"] →
      getCompletedStates ty = ["Done", "Closed"]) := by
  refine ⟨?_, rfl, rfl, rfl, rfl, rfl, ?_⟩
  · intro node
    rw [calculateNodeProgress_eq]
    by_cases h : node.children.length = 0
    · refine ⟨by simp [h], by simp [h], ?_⟩
      by_cases hc : node.state ∈ getCompletedStates node.workItemType <;> simp [h, hc]
    · refine ⟨by simp [h], by simp [h], ?_⟩
      simp only [if_neg h]
      exact List.countP_le_length _
  · intro ty hty
    simp only [List.mem_cons, List.not_mem_nil, or_false] at hty
    push_neg at hty
    obtain ⟨h1, h2, h3, h4, h5⟩ := hty
    simp [getCompletedStates, h1, h2, h3, h4, h5]

/-- C5 witness: the fallback clause applied to the unmapped type "Issue". -/
theorem c5_progress_counts_witness : getCompletedStates "Issue" = ["Done", "Closed"] :=
  c5_progress_counts.2.2.2.2.2.2 "Issue" (by decide)

/-! ## Root date-filter theorems -/

theorem rootDateCheck_none (imap : IterationMap) (proj : String) (n : WorkItemNode) :
    rootDateCheck none imap proj n = true := rfl

theorem rootDateCheck_some_both (imap : IterationMap) (proj : String) (n : WorkItemNode)
    (fs fe : SDate) :
    rootDateCheck (some { startDate := some fs, endDate := some fe }) imap proj n = true ↔
      ∃ d, findIterationDates n.iterationPath proj imap = some d ∧
        ¬ dLt d.finishDate fs = true ∧ ¬ dLt fe d.startDate = true := by
  rw [rootDateCheck]
  cases hf : findIterationDates n.iterationPath proj imap with
  | none => simp [hf]
  | some d =>
    simp only [hf, Option.isSome_some, Bool.or_self, if_true]
    by_cases h1 : dLt d.finishDate fs = true
    · simp [h1]
    · by_cases h2 : dLt fe d.startDate = true <;> simp [h1, h2]

/-- C6: with an explicit calendar range filter, `findRootNodes` keeps a
candidate root exactly when it is a root without the filter, its iteration
dates resolve, and the resolved interval overlaps the filter inclusively
(not iterEnd < filterStart and not filterEnd < iterStart); in particular a
root whose iteration is [2024-04-01, 2024-04-14] is excluded under the
range [2024-01-01, 2024-03-31], and a root whose dates do not resolve is
excluded. -/
theorem c6_root_date_filter :
    (∀ (m : List (Nat × WorkItemNode)) (rt : String) (imap : IterationMap)
        (proj : String) (fs fe : SDate) (n : WorkItemNode),
      n ∈ findRootNodes m rt imap proj (some { startDate := some fs, endDate := some fe })
        ↔ (n ∈ findRootNodes m rt imap proj none ∧
            ∃ d, findIterationDates n.iterationPath proj imap = some d ∧
              ¬ dLt d.finishDate fs = true ∧ ¬ dLt fe d.startDate = true)) ∧
    (findRootNodes cexMap6 "Epic" cexIterMap6 "Proj" (some cexRange6)).map
        WorkItemNode.id = [] ∧
    (findRootNodes cexMap6 "Epic" cexIterMap6 "Proj" none).map WorkItemNode.id = [10] ∧
    (findRootNodes [(11, cexNode6u)] "Epic" [] "Proj" (some cexRange6)).map
        WorkItemNode.id = [] ∧
    (findRootNodes [(11, cexNode6u)] "Epic" [] "Proj" none).map WorkItemNode.id = [11] := by
  refine ⟨?_, by decide, by decide, by decide, by decide⟩
  intro m rt imap proj fs fe n
  rw [mem_findRootNodes, mem_findRootNodes]
  constructor
  · rintro ⟨e, hem, hen, hcond, hcheck⟩
    rw [hen] at hcheck
    exact ⟨⟨e, hem, hen, hcond, rootDateCheck_none imap proj e.2⟩,
      (rootDateCheck_some_both imap proj n fs fe).mp hcheck⟩
  · rintro ⟨⟨e, hem, hen, hcond, _⟩, hdate⟩
    refine ⟨e, hem, hen, hcond, ?_⟩
    rw [hen]
    exact (rootDateCheck_some_both imap proj n fs fe).mpr hdate

/-! ## Iteration context theorems -/

theorem qWrap_eq_self (q y : Int) (h1 : 1 ≤ q) (h2 : q ≤ 4) : qWrap q y = (q, y) := by
  rw [qWrap, if_neg (by omega), if_neg (by omega)]

theorem foldl_paths_eq (p : (String × IterDates) → Bool) (l : IterationMap)
    (acc : List String) :
    l.foldl (fun iterationPaths e => if p e then iterationPaths ++ [e.1] else iterationPaths)
        acc = acc ++ (l.filter p).map Prod.fst := by
  induction l generalizing acc with
  | nil => simp
  | cons a rest ih =>
    rw [List.foldl_cons, List.filter_cons]
    by_cases h : p a
    · rw [if_pos h, ih, if_pos h]
      simp
    · rw [if_neg h, ih, if_neg h]

/-- C7: `getCurrentIterationContext` returns exactly the iteration paths
whose interval is fully contained (start at or after the window start, end
at or before the window end) in the four-quarter window, and for reference
date 2024-05-15 that window is 2024-01-01 through 2024-12-31. -/
theorem c7_iteration_context_window :
    (∀ (now : SDate) (m : IterationMap) (p : String),
      p ∈ getCurrentIterationContext now m ↔
        ∃ d, (p, d) ∈ m ∧
          dLe (getQuarterRange now).previousQuarterStart d.startDate = true ∧
          dLe d.finishDate (getQuarterRange now).twoQuartersAfterEnd = true) ∧
    getQuarterRange ⟨2024, 4, 15⟩ =
      { previousQuarterStart := ⟨2024, 0, 1⟩, twoQuartersAfterEnd := ⟨2024, 11, 31⟩ } := by
  constructor
  · intro now m p
    rw [getCurrentIterationContext, foldl_paths_eq]
    simp only [List.nil_append, List.mem_map, List.mem_filter, Bool.and_eq_true]
    constructor
    · rintro ⟨⟨k, d⟩, ⟨hem, h1, h2⟩, hfst⟩
      cases hfst
      exact ⟨d, hem, h1, h2⟩
    · rintro ⟨d, hem, h1, h2⟩
      exact ⟨(p, d), ⟨hem, h1, h2⟩, rfl⟩
  · norm_num [getQuarterRange, shiftQuarter, qWrap_eq_self, jsDate, daysInMonth,
      isLeapYear]

/-! ## Query builder theorems -/

/-- C8: the iteration filter of `buildWorkItemTreeQuery` is interpolated
between the fixed `[Source]`-scoped head and the fixed link/`[Target]`
project-scope tail, and consists only of `[Source].[System.IterationPath]`
conditions: an OR'd equality per path when a non-empty path list is given,
else the non-empty floor unless `requireIteration` is explicitly false,
else nothing. -/
theorem c8_query_iteration_clause :
    (∀ (project rootWorkItemType : String) (f : Option IterationFilterOptions) (d : Nat),
        buildWorkItemTreeQuery project rootWorkItemType f d =
          queryHead project rootWorkItemType ++ iterationFilterClauseOf f
            ++ queryTail project) ∧
    (∀ (filt : IterationFilterOptions) (paths : List String),
        filt.iterationPaths = some paths → paths ≠ [] →
        iterationFilterClauseOf (some filt) =
          "AND (" ++ String.intercalate " OR "
            (paths.map (fun path => "[Source].[System.IterationPath] = '" ++ path ++ "'"))
            ++ ")") ∧
    (∀ filt : IterationFilterOptions,
        (filt.iterationPaths = none ∨ filt.iterationPaths = some []) →
        filt.requireIteration ≠ some false →
        iterationFilterClauseOf (some filt) = "AND [Source].[System.IterationPath] <> ''") ∧
    (∀ filt : IterationFilterOptions,
        (filt.iterationPaths = none ∨ filt.iterationPaths = some []) →
        filt.requireIteration = some false →
        iterationFilterClauseOf (some filt) = "") ∧
    iterationFilterClauseOf none = "" := by
  refine ⟨fun _ _ _ _ => rfl, ?_, ?_, ?_, rfl⟩
  · intro filt paths hp hne
    simp only [iterationFilterClauseOf, hp]
    rw [if_pos (List.length_pos.mpr hne)]
  · intro filt hp hreq
    rcases hp with hp | hp <;> simp only [iterationFilterClauseOf, hp]
    · rw [if_pos hreq]
    · rw [if_neg (by simp), if_pos hreq]
  · intro filt hp hreq
    rcases hp with hp | hp <;> simp only [iterationFilterClauseOf, hp]
    · rw [if_neg (fun hne => hne hreq)]
    · rw [if_neg (by simp), if_neg (fun hne => hne hreq)]

/-- C8 witness: a one-path filter produces the single OR'd equality clause
over `[Source].[System.IterationPath]`. -/
theorem c8_query_iteration_clause_witness :
    iterationFilterClauseOf (some cexFilt8)
      = "AND ([Source].[System.IterationPath] = 'Proj\\S1')" :=
  (c8_query_iteration_clause.2.1 cexFilt8 ["Proj\\S1"] rfl (by decide)).trans (by decide)

/-! ## Conversion theorems -/

theorem convertChildren_eq_filterMap (cs : List WorkItemNode) (imap : IterationMap)
    (proj : String) :
    convertChildren cs imap proj
      = cs.filterMap (fun c => convertNodeToWorkItem c imap proj) := by
  induction cs with
  | nil => rfl
  | cons c rest ih =>
    rw [convertChildren, List.filterMap_cons]
    cases hc : convertNodeToWorkItem c imap proj <;> simp [hc, ih]

/-- C10: a successfully converted node's optional counts triple is computed
by `calculateNodeProgress` over the node's full direct-children list (keyed
by the child type `getChildWorkItemType` yields), while the emitted
children list keeps only the children whose own conversion succeeds; on
`cexNode10` the counts say 2 features while only 1 child is emitted. -/
theorem c10_counts_precede_child_drop :
    (∀ (node : WorkItemNode) (imap : IterationMap) (proj : String)
        (w : ConvertedWorkItem),
        convertNodeToWorkItem node imap proj = some w →
        w.counts = (getChildWorkItemType node.workItemType).map
            (fun ct => (ct, (calculateNodeProgress node).total,
              (calculateNodeProgress node).completed)) ∧
        w.children
          = node.children.filterMap (fun c => convertNodeToWorkItem c imap proj)) ∧
    ((convertNodeToWorkItem cexNode10 cexIterMap9 "Proj").map
        (fun w => (w.counts, w.children.length)) = some (some ("Feature", 2, 0), 1)) := by
  constructor
  · intro node imap proj w h
    obtain ⟨nid, ntitle, nstate, ntype, npath, narea, nchildren, nci⟩ := node
    rw [convertNodeToWorkItem] at h
    cases hf : findIterationDates npath proj imap with
    | none => rw [hf] at h; cases h
    | some dts =>
      rw [hf] at h
      simp only [Option.some.injEq] at h
      subst h
      refine ⟨rfl, ?_⟩
      exact convertChildren_eq_filterMap nchildren imap proj
  · decide

/-- C10 witness: the amended-free universal part applied to `cexNode10`,
whose conversion is `cexConverted10`. -/
theorem c10_counts_precede_child_drop_witness :
    cexConverted10.counts = (getChildWorkItemType cexNode10.workItemType).map
        (fun ct => (ct, (calculateNodeProgress cexNode10).total,
          (calculateNodeProgress cexNode10).completed))
      ∧ cexConverted10.children
        = cexNode10.children.filterMap (fun c => convertNodeToWorkItem c cexIterMap9 "Proj") :=
  c10_counts_precede_child_drop.1 cexNode10 cexIterMap9 "Proj" cexConverted10 (by rfl)

/-! ## Value stream grouping theorems -/

theorem jsSplitOnChar_ne_nil (sep : Char) (l : List Char) : jsSplitOnChar sep l ≠ [] := by
  induction l with
  | nil => simp [jsSplitOnChar]
  | cons a rest ih =>
    by_cases h : a = sep
    · simp [jsSplitOnChar, h]
    · simp only [jsSplitOnChar, h, if_false]
      cases jsSplitOnChar sep rest <;> simp

theorem mapSet_keys {α β : Type} [DecidableEq α] (m : List (α × β)) (k : α) (v : β)
    (e : α × β) (he : e ∈ mapSet m k v) : e.1 = k ∨ e.1 ∈ m.map Prod.fst := by
  induction m with
  | nil =>
    simp only [mapSet, List.mem_singleton] at he
    subst he
    exact Or.inl rfl
  | cons a rest ih =>
    obtain ⟨ak, av⟩ := a
    simp only [mapSet] at he
    rw [List.map_cons]
    by_cases h : ak = k
    · rw [if_pos h] at he
      rcases List.mem_cons.mp he with h1 | h1
      · subst h1; exact Or.inl rfl
      · exact Or.inr (List.mem_cons_of_mem _ (List.mem_map_of_mem Prod.fst h1))
    · rw [if_neg h] at he
      rcases List.mem_cons.mp he with h1 | h1
      · subst h1; exact Or.inr (List.mem_cons_self _ _)
      · rcases ih h1 with h2 | h2
        · exact Or.inl h2
        · exact Or.inr (List.mem_cons_of_mem _ h2)

theorem addRootToValueStreamMap_keys (imap : IterationMap) (project : String)
    (vsm : List (String × List ConvertedWorkItem)) (r : WorkItemNode)
    (e : String × List ConvertedWorkItem)
    (he : e ∈ addRootToValueStreamMap imap project vsm r) :
    e.1 = r.areaPath ∨ e.1 ∈ vsm.map Prod.fst := by
  rw [addRootToValueStreamMap] at he
  cases hc : convertNodeToWorkItem r imap project with
  | none => rw [hc] at he; exact Or.inr (List.mem_map_of_mem Prod.fst he)
  | some w =>
    rw [hc] at he
    simp only at he
    rcases mapSet_keys _ _ _ _ he with h | h
    · exact Or.inl h
    · by_cases hhas : (mapFind vsm r.areaPath).isSome
      · rw [if_pos hhas] at h
        exact Or.inr h
      · rw [if_neg hhas] at h
        rcases List.mem_map.mp h with ⟨e2, he2, hfst⟩
        rcases mapSet_keys _ _ _ _ he2 with h2 | h2
        · exact Or.inl (hfst ▸ h2)
        · exact Or.inr (hfst ▸ h2)

theorem bucket_keys_sub (imap : IterationMap) (project : String)
    (roots : List WorkItemNode) (acc : List (String × List ConvertedWorkItem))
    (e : String × List ConvertedWorkItem)
    (he : e ∈ roots.foldl (addRootToValueStreamMap imap project) acc) :
    e.1 ∈ acc.map Prod.fst ∨ e.1 ∈ roots.map WorkItemNode.areaPath := by
  induction roots generalizing acc with
  | nil => exact Or.inl (List.mem_map_of_mem Prod.fst he)
  | cons r rest ih =>
    rw [List.foldl_cons] at he
    rcases ih _ he with h | h
    · rcases List.mem_map.mp h with ⟨e2, he2, hfst⟩
      rcases addRootToValueStreamMap_keys imap project acc r e2 he2 with h2 | h2
      · exact Or.inr (by rw [← hfst, h2]; exact List.mem_cons_self _ _)
      · exact Or.inl (hfst ▸ h2)
    · exact Or.inr (List.mem_cons_of_mem _ h)

theorem getLast?_jsSplitOnChar_isSome (sep : Char) (l : List Char) :
    ∃ x, (jsSplitOnChar sep l).getLast? = some x := by
  cases hsl : (jsSplitOnChar sep l).getLast? with
  | none => exact absurd (List.getLast?_eq_none_iff.mp hsl) (jsSplitOnChar_ne_nil _ _)
  | some x => exact ⟨x, rfl⟩

theorem lastSegmentOrSelf_eq_of_getLast? (gp : String) (x : List Char)
    (hx : (jsSplitOnChar '\\' gp.data).getLast? = some x) :
    lastSegmentOrSelf gp = if x.isEmpty then gp else String.mk x := by
  rw [lastSegmentOrSelf, hx]

theorem jsSplitOnChar_of_not_contains (sep : Char) (l : List Char)
    (hc : ¬ l.contains sep) : jsSplitOnChar sep l = [l] := by
  induction l with
  | nil => rfl
  | cons a rest ih =>
    simp only [List.contains_cons, Bool.or_eq_true, not_or] at hc
    rw [jsSplitOnChar]
    rw [if_neg (by simp only [beq_iff_eq] at hc; exact fun hh => hc.1 hh.symm), ih hc.2]

theorem lastSegmentOrSelf_of_last_ne_nil (gp : String)
    (h : (jsSplitOnChar '\\' gp.data).getLastD [] ≠ []) :
    lastSegmentOrSelf gp = specLastSegment gp := by
  obtain ⟨x, hx⟩ := getLast?_jsSplitOnChar_isSome '\\' gp.data
  have hxd : (jsSplitOnChar '\\' gp.data).getLastD [] = x := by
    rw [List.getLastD_eq_getLast?, hx]
    rfl
  rw [hxd] at h
  rw [lastSegmentOrSelf_eq_of_getLast? gp x hx, if_neg (by simpa using h)]
  rw [specLastSegment]
  by_cases hc : gp.data.contains '\\'
  · rw [if_pos hc, hxd]
  · rw [if_neg hc]
    have hsplit := jsSplitOnChar_of_not_contains '\\' gp.data hc
    rw [hsplit] at hx
    rw [show ([gp.data] : List (List Char)).getLast? = some gp.data from rfl] at hx
    simp only [Option.some.injEq] at hx
    rw [← hx]

theorem lastSegmentOrSelf_of_last_nil (gp : String)
    (h : (jsSplitOnChar '\\' gp.data).getLastD [] = []) : lastSegmentOrSelf gp = gp := by
  obtain ⟨x, hx⟩ := getLast?_jsSplitOnChar_isSome '\\' gp.data
  have hxd : (jsSplitOnChar '\\' gp.data).getLastD [] = x := by
    rw [List.getLastD_eq_getLast?, hx]
    rfl
  rw [lastSegmentOrSelf_eq_of_getLast? gp x hx, if_pos (by rw [← hxd, h]; rfl)]

theorem mapFind_mapSet {α β : Type} [DecidableEq α] (m : List (α × β)) (k : α) (v : β)
    (k' : α) : mapFind (mapSet m k v) k' = if k = k' then some v else mapFind m k' := by
  induction m with
  | nil => by_cases h : k = k' <;> simp [mapSet, mapFind, h]
  | cons e rest ih =>
    obtain ⟨ek, ev⟩ := e
    simp only [mapSet]
    by_cases h1 : ek = k
    · subst h1
      simp only [if_pos rfl]
      by_cases h2 : ek = k' <;> simp [mapFind, h2]
    · rw [if_neg h1]
      by_cases h2 : ek = k'
      · have h3 : ¬ k = k' := fun hh => h1 (h2.trans hh.symm)
        simp [mapFind, h2, h3]
      · simp [mapFind, h2, ih]

theorem mem_keys_iff_isSome {α β : Type} [DecidableEq α] (m : List (α × β)) (k : α) :
    k ∈ m.map Prod.fst ↔ (mapFind m k).isSome := by
  induction m with
  | nil => simp [mapFind]
  | cons e rest ih =>
    obtain ⟨ek, ev⟩ := e
    simp only [List.map_cons, List.mem_cons, mapFind]
    by_cases h : ek = k
    · subst h
      simp
    · have h2 : ¬ k = ek := fun hh => h hh.symm
      simp [h, h2, ih]

theorem keys_mapSet {α β : Type} [DecidableEq α] (m : List (α × β)) (k : α) (v : β) :
    (mapSet m k v).map Prod.fst =
      if (mapFind m k).isSome then m.map Prod.fst else m.map Prod.fst ++ [k] := by
  induction m with
  | nil => simp [mapSet, mapFind]
  | cons e rest ih =>
    obtain ⟨ek, ev⟩ := e
    by_cases h : ek = k
    · simp [mapSet, mapFind, h]
    · simp only [mapSet, mapFind, if_neg h, List.map_cons, ih]
      by_cases h2 : (mapFind rest k).isSome <;> simp [h2]

theorem mapFind_of_nodup_mem {α β : Type} [DecidableEq α] (m : List (α × β))
    (hnd : (m.map Prod.fst).Nodup) (e : α × β) (he : e ∈ m) :
    mapFind m e.1 = some e.2 := by
  induction m with
  | nil => cases he
  | cons a rest ih =>
    rw [List.map_cons, List.nodup_cons] at hnd
    rcases List.mem_cons.mp he with h | h
    · subst h
      rw [mapFind, if_pos rfl]
    · have hne : a.1 ≠ e.1 := by
        intro hh
        exact hnd.1 (hh ▸ List.mem_map_of_mem Prod.fst h)
      rw [mapFind, if_neg hne]
      exact ih hnd.2 h

theorem addRootToValueStreamMap_of_none (imap : IterationMap) (project : String)
    (vsm : List (String × List ConvertedWorkItem)) (r : WorkItemNode)
    (hconv : convertNodeToWorkItem r imap project = none) :
    addRootToValueStreamMap imap project vsm r = vsm := by
  rw [addRootToValueStreamMap, hconv]

theorem mapFind_addRootToValueStreamMap_self (imap : IterationMap) (project : String)
    (vsm : List (String × List ConvertedWorkItem)) (r : WorkItemNode)
    (w : ConvertedWorkItem) (hconv : convertNodeToWorkItem r imap project = some w) :
    mapFind (addRootToValueStreamMap imap project vsm r) r.areaPath
      = some ((mapFind vsm r.areaPath).getD [] ++ [w]) := by
  rw [addRootToValueStreamMap, hconv]
  by_cases h : (mapFind vsm r.areaPath).isSome
  · simp only [if_pos h]
    rw [mapFind_mapSet, if_pos rfl]
  · simp only [if_neg h]
    rw [mapFind_mapSet, if_pos rfl, mapFind_mapSet, if_pos rfl]
    rw [Option.not_isSome_iff_eq_none.mp h]
    rfl

theorem mapFind_addRootToValueStreamMap_other (imap : IterationMap) (project : String)
    (vsm : List (String × List ConvertedWorkItem)) (r : WorkItemNode)
    (w : ConvertedWorkItem) (gp : String)
    (hconv : convertNodeToWorkItem r imap project = some w) (hne : gp ≠ r.areaPath) :
    mapFind (addRootToValueStreamMap imap project vsm r) gp = mapFind vsm gp := by
  rw [addRootToValueStreamMap, hconv]
  by_cases h : (mapFind vsm r.areaPath).isSome
  · simp only [if_pos h]
    rw [mapFind_mapSet, if_neg (fun hh => hne hh.symm)]
  · simp only [if_neg h]
    rw [mapFind_mapSet, if_neg (fun hh => hne hh.symm),
      mapFind_mapSet, if_neg (fun hh => hne hh.symm)]

theorem keys_addRootToValueStreamMap (imap : IterationMap) (project : String)
    (vsm : List (String × List ConvertedWorkItem)) (r : WorkItemNode) :
    (addRootToValueStreamMap imap project vsm r).map Prod.fst =
      if (convertNodeToWorkItem r imap project).isSome then
        (if (mapFind vsm r.areaPath).isSome then vsm.map Prod.fst
         else vsm.map Prod.fst ++ [r.areaPath])
      else vsm.map Prod.fst := by
  cases hconv : convertNodeToWorkItem r imap project with
  | none => rw [addRootToValueStreamMap_of_none imap project vsm r hconv]; simp
  | some w =>
    rw [addRootToValueStreamMap, hconv]
    simp only [Option.isSome_some, if_true]
    by_cases h : (mapFind vsm r.areaPath).isSome
    · simp only [if_pos h]
      rw [keys_mapSet, if_pos h]
    · simp only [if_neg h]
      rw [keys_mapSet, if_pos (by rw [mapFind_mapSet, if_pos rfl]; rfl),
        keys_mapSet, if_neg h]

theorem nodup_keys_foldl_addRoot (roots : List WorkItemNode) (imap : IterationMap)
    (project : String) (acc : List (String × List ConvertedWorkItem))
    (hacc : (acc.map Prod.fst).Nodup) :
    (((roots.foldl (addRootToValueStreamMap imap project) acc)).map Prod.fst).Nodup := by
  induction roots generalizing acc with
  | nil => exact hacc
  | cons r rest ih =>
    rw [List.foldl_cons]
    refine ih _ ?_
    rw [keys_addRootToValueStreamMap]
    by_cases h1 : (convertNodeToWorkItem r imap project).isSome
    · rw [if_pos h1]
      by_cases h2 : (mapFind acc r.areaPath).isSome
      · rw [if_pos h2]; exact hacc
      · rw [if_neg h2]
        have h3 : r.areaPath ∉ acc.map Prod.fst :=
          fun hm => h2 ((mem_keys_iff_isSome acc r.areaPath).mp hm)
        simp [List.nodup_append, hacc, h3]
    · rw [if_neg h1]; exact hacc

theorem convertedItemsFor_cons (r : WorkItemNode) (rest : List WorkItemNode)
    (imap : IterationMap) (project : String) (gp : String) :
    convertedItemsFor (r :: rest) imap project gp =
      (if r.areaPath = gp then (convertNodeToWorkItem r imap project).toList else [])
        ++ convertedItemsFor rest imap project gp := by
  rw [convertedItemsFor, List.filter_cons]
  by_cases h : r.areaPath = gp
  · rw [if_pos (by simp [h]), if_pos h, List.filterMap_cons]
    cases hc : convertNodeToWorkItem r imap project <;> simp [hc, convertedItemsFor]
  · rw [if_neg (by simp [h]), if_neg h]
    simp [convertedItemsFor]

theorem convertedItemsFor_ne_nil_iff (roots : List WorkItemNode) (imap : IterationMap)
    (project : String) (gp : String) :
    convertedItemsFor roots imap project gp ≠ [] ↔
      ∃ r ∈ roots, r.areaPath = gp ∧ (convertNodeToWorkItem r imap project).isSome := by
  rw [convertedItemsFor, Ne, List.filterMap_eq_nil_iff]
  push_neg
  constructor
  · rintro ⟨r, hr, hconv⟩
    rw [List.mem_filter] at hr
    exact ⟨r, hr.1, by simpa using hr.2, Option.isSome_iff_ne_none.mpr hconv⟩
  · rintro ⟨r, hr, hap, hconv⟩
    exact ⟨r, List.mem_filter.mpr ⟨hr, by simpa using hap⟩,
      Option.isSome_iff_ne_none.mp hconv⟩

theorem mapFind_foldl_addRoot (roots : List WorkItemNode) (imap : IterationMap)
    (project : String) (acc : List (String × List ConvertedWorkItem)) (gp : String) :
    mapFind (roots.foldl (addRootToValueStreamMap imap project) acc) gp
      = if (mapFind acc gp).isSome ∨ convertedItemsFor roots imap project gp ≠ []
        then some ((mapFind acc gp).getD [] ++ convertedItemsFor roots imap project gp)
        else none := by
  induction roots generalizing acc with
  | nil => cases hm : mapFind acc gp <;> simp [hm, convertedItemsFor]
  | cons r rest ih =>
    rw [List.foldl_cons, convertedItemsFor_cons]
    cases hconv : convertNodeToWorkItem r imap project with
    | none =>
      rw [addRootToValueStreamMap_of_none imap project acc r hconv, ih]
      by_cases h : r.areaPath = gp <;> simp [h]
    | some w =>
      by_cases hap : r.areaPath = gp
      · have hself := mapFind_addRootToValueStreamMap_self imap project acc r w hconv
        rw [hap] at hself
        rw [ih, hself]
        cases hm : mapFind acc gp <;> simp [hm, hap]
      · rw [ih, mapFind_addRootToValueStreamMap_other imap project acc r w gp hconv
          (fun hh => hap hh.symm)]
        simp [hap]

theorem mapFind_bucket (roots : List WorkItemNode) (imap : IterationMap)
    (project : String) (gp : String) :
    mapFind (roots.foldl (addRootToValueStreamMap imap project) []) gp
      = if convertedItemsFor roots imap project gp = [] then none
        else some (convertedItemsFor roots imap project gp) := by
  rw [mapFind_foldl_addRoot]
  by_cases h : convertedItemsFor roots imap project gp = [] <;> simp [mapFind, h]

theorem bucket_count (roots : List WorkItemNode) (imap : IterationMap)
    (project : String) (gp : String) :
    ((roots.foldl (addRootToValueStreamMap imap project) []).map Prod.fst).count gp
      = if convertedItemsFor roots imap project gp = [] then 0 else 1 := by
  have hnd := nodup_keys_foldl_addRoot roots imap project [] (by simp)
  by_cases h : convertedItemsFor roots imap project gp = []
  · rw [if_pos h]
    refine List.count_eq_zero.mpr (fun hm => ?_)
    have := (mem_keys_iff_isSome _ gp).mp hm
    rw [mapFind_bucket, if_pos h] at this
    cases this
  · rw [if_neg h]
    refine List.count_eq_one_of_mem hnd ?_
    rw [mem_keys_iff_isSome, mapFind_bucket, if_neg h]
    rfl

theorem groupIntoValueStreams_eq_map (roots : List WorkItemNode) (imap : IterationMap)
    (project : String) :
    groupIntoValueStreams roots imap project
      = (roots.foldl (addRootToValueStreamMap imap project) []).map
          (fun e => { id := replaceNonAlnum e.1, name := lastSegmentOrSelf e.1,
                      workItems := e.2 }) := by
  rw [groupIntoValueStreams]
  have hnd := nodup_keys_foldl_addRoot roots imap project [] (by simp)
  have hall : ∀ e ∈ roots.foldl (addRootToValueStreamMap imap project) [],
      decide (e.2.length > 0) = true := by
    intro e he
    have hf := mapFind_of_nodup_mem _ hnd e he
    rw [mapFind_bucket] at hf
    by_cases hci : convertedItemsFor roots imap project e.1 = []
    · rw [if_pos hci] at hf; cases hf
    · rw [if_neg hci] at hf
      simp only [Option.some.injEq] at hf
      rw [← hf]
      simpa using List.length_pos.mpr hci
  rw [List.filter_eq_self.mpr hall]

/-- C9: the claim says each emitted stream's name is the last
backslash-delimited segment, with the full path used only when there is no
backslash. Counterexample: a grouping path ending in a backslash produces
the full path as the name although the path does contain a backslash and
its last segment is the empty string. -/
theorem c9_counterexample :
    ((groupIntoValueStreams [cexRoot9] cexIterMap9 "Proj").map ValueStream.name
        = ["Proj\\Team A\\"])
      ∧ specLastSegment "Proj\\Team A\\" = ""
      ∧ ("Proj\\Team A\\" : String) ≠ "" := by
  decide

/-- C9 (amended): the grouping emits exactly one ValueStream per grouping
path with at least one successfully converted root, and none for any other
path: the emitted list is the one-to-one image of the area-path bucket
map, whose keys carry the path `gp` exactly once when some root with area
path `gp` converts (count 1, else 0) and whose bucket under `gp` holds
precisely the converted items of the roots with that area path, in order —
so no stream is ever empty. Every emitted stream carries the id
(non-alphanumerics replaced by hyphens) and name of some root's grouping
path; the name is the last backslash-delimited segment exactly as the
specification words it whenever that segment is non-empty, and falls back
to the full path both when the path has no backslash and when its last
segment is empty; Scenario C produces ids "Proj-Team-A"/"Proj-Team-B" with
names "Team A"/"Team B". -/
theorem c9_amended_grouping :
    (∀ (roots : List WorkItemNode) (imap : IterationMap) (project : String)
        (vs : ValueStream), vs ∈ groupIntoValueStreams roots imap project →
        vs.workItems ≠ [] ∧ ∃ gp, gp ∈ roots.map WorkItemNode.areaPath ∧
          vs.id = replaceNonAlnum gp ∧ vs.name = lastSegmentOrSelf gp) ∧
    (∀ (roots : List WorkItemNode) (imap : IterationMap) (project : String),
        groupIntoValueStreams roots imap project
          = (roots.foldl (addRootToValueStreamMap imap project) []).map
              (fun e => { id := replaceNonAlnum e.1, name := lastSegmentOrSelf e.1,
                          workItems := e.2 })) ∧
    (∀ (roots : List WorkItemNode) (imap : IterationMap) (project gp : String),
        ((roots.foldl (addRootToValueStreamMap imap project) []).map Prod.fst).count gp
          = if convertedItemsFor roots imap project gp = [] then 0 else 1) ∧
    (∀ (roots : List WorkItemNode) (imap : IterationMap) (project gp : String),
        mapFind (roots.foldl (addRootToValueStreamMap imap project) []) gp
          = if convertedItemsFor roots imap project gp = [] then none
            else some (convertedItemsFor roots imap project gp)) ∧
    (∀ (roots : List WorkItemNode) (imap : IterationMap) (project gp : String),
        convertedItemsFor roots imap project gp ≠ [] ↔
          ∃ r ∈ roots, r.areaPath = gp ∧
            (convertNodeToWorkItem r imap project).isSome) ∧
    (∀ gp : String, (jsSplitOnChar '\\' gp.data).getLastD [] ≠ [] →
        lastSegmentOrSelf gp = specLastSegment gp) ∧
    (∀ gp : String, (jsSplitOnChar '\\' gp.data).getLastD [] = [] →
        lastSegmentOrSelf gp = gp) ∧
    ((groupIntoValueStreams cexRootsC cexIterMap9 "Proj").map (fun vs => (vs.id, vs.name))
        = [("Proj-Team-A", "Team A"), ("Proj-Team-B", "Team B")]) := by
  refine ⟨?_, groupIntoValueStreams_eq_map, bucket_count, mapFind_bucket,
    convertedItemsFor_ne_nil_iff, lastSegmentOrSelf_of_last_ne_nil,
    lastSegmentOrSelf_of_last_nil, by decide⟩
  intro roots imap project vs hvs
  rw [groupIntoValueStreams] at hvs
  simp only [List.mem_map, List.mem_filter] at hvs
  obtain ⟨e, ⟨hmem, hlen⟩, hvs⟩ := hvs
  subst hvs
  constructor
  · simp only [ne_eq]
    intro hnil
    rw [hnil] at hlen
    simp at hlen
  · rcases bucket_keys_sub imap project roots [] e hmem with h | h
    · simp at h
    · exact ⟨e.1, h, rfl, rfl⟩

/-- C9 witness: the name rule applied to the grouping path "Proj\Team A",
whose last segment is non-empty. -/
theorem c9_amended_grouping_witness :
    lastSegmentOrSelf "Proj\\Team A" = specLastSegment "Proj\\Team A" :=
  c9_amended_grouping.2.2.2.2.2.1 "Proj\\Team A" (by decide)

end ScaledAgile
